import Mathlib

/-!
Verification of the spatio-temporal permutation cluster test specification and of
the `mne/command.py` helpers of this repository.

The cluster-test core (`spatio_temporal_cluster_test` and its collaborators) is not
among the repository files available here — only its caller in
`examples/stats/plot_spatio_temporal_cluster_stats_sensor.py` is — so those
components are modelled from the specification (each such definition is marked
`Modelled from the spec:`).  The `mne/command.py` helpers are embedded directly
from the source.
-/

/- ### Definitions -/

/-- Modelled from the spec: the Significance Calculator (spec section 4.6), missing from
the available sources.  For `tail = +1`, the p-value of an observed cluster score `s`
against the null distribution is
`(number of null-distribution entries ≥ s, plus 1) / (number of permutations + 1)`,
the add-one correction that avoids zero p-values. -/
def pValue (nullDist : List ℚ) (s : ℚ) : ℚ :=
  (((nullDist.countP fun x => decide (s ≤ x)) : ℚ) + 1) / ((nullDist.length : ℚ) + 1)

/-- A Python value as passed in the keyword arguments of process_raw. -/
inductive PyVal where
  | str : String → PyVal
  | int : Int → PyVal
  | bool : Bool → PyVal
  | list : List PyVal → PyVal

/-- Python truthiness of a value. -/
def pyTruthy : PyVal → Bool
  | .str s => s != ""
  | .int n => n != 0
  | .bool b => b
  | .list l => !l.isEmpty

/-- Python string interpolation of a value, as produced by the source's percent-s
formatting.  Python renders a list value via the reprs of its elements, always
opening with a square bracket; since no claim depends on the exact text inside the
brackets, the list case keeps only that shape. -/
def pyStr : PyVal → String
  | .str s => s
  | .int n => toString n
  | .bool b => if b then "True" else "False"
  | .list _ => "[...]"

/-- A Python exception raised by the command helpers. -/
inductive PyErr where
  | assertionError : PyErr
  | valueError : String → PyErr
  | nameError : String → PyErr
deriving DecidableEq

/-- Embedding of the helper at src/mne/command.py lines 9-15: the number of items held
under a key, counting a list value by its length and any other present value as 1. -/
def _n_items (d : List (String × PyVal)) (key : String) : Nat :=
  match d.lookup key with
  | none => 0
  | some (PyVal.list l) => l.length
  | some _ => 1

/-- The list wrapping of src/mne/command.py lines 113-114: a non-list value is wrapped
into a singleton list before formatting. -/
def asList : PyVal → List PyVal
  | PyVal.list l => l
  | PyVal.str s => [PyVal.str s]
  | PyVal.int n => [PyVal.int n]
  | PyVal.bool b => [PyVal.bool b]

/-- Embedding of the keyword loop of process_raw, src/mne/command.py lines 98-119.
Python's tests there compare interned keyword-name literals and behave as string
equality.  The inner branch guarded by a truthiness test that its own guard has just
negated is kept exactly as written in the source. -/
def processArgs : List (String × PyVal) → List String
  | [] => []
  | (key, val) :: rest =>
    if key = "proj" then
      (if pyTruthy val then ["--projon"] else ["--projoff"]) ++ processArgs rest
    else if key = "filter" ∧ pyTruthy val = false then
      (if pyTruthy val then ["--filteroff"] else []) ++ processArgs rest
    else
      (asList val).foldr (fun v acc => ("--" ++ key) :: pyStr v :: acc) (processArgs rest)

/-- Embedding of process_raw, src/mne/command.py lines 18-122.  The returned list is
the command handed to the final Popen call; the error cases are the exceptions the
function raises before reaching it. -/
def process_raw (kwargs : List (String × PyVal)) : Except PyErr (List String) :=
  if (kwargs.lookup "raw").isNone then Except.error PyErr.assertionError
  else if _n_items kwargs "raw" = 0 then
    Except.error (PyErr.valueError "You have to specify a raw file as input")
  else if _n_items kwargs "cov" > 0 ∧ _n_items kwargs "cov" ≠ _n_items kwargs "raw" then
    Except.error PyErr.assertionError
  else if _n_items kwargs "ave" > 0 ∧ _n_items kwargs "ave" ≠ _n_items kwargs "raw" then
    Except.error PyErr.assertionError
  else
    Except.ok ("mne_process_raw" :: processArgs kwargs)

/-- Evaluation of a Python name against a local scope; an unbound name raises a
NameError naming it. -/
def lookupName (scope : List (String × PyVal)) (x : String) : Except PyErr PyVal :=
  match scope.lookup x with
  | some v => Except.ok v
  | none => Except.error (PyErr.nameError x)

/-- Embedding of mark_bad_channels, src/mne/command.py lines 150-169.  Its local scope
binds only the parameters fname and bad_fname, yet after appending the file flag the
body evaluates the names dig and fix; the returned list is the command the final
Popen call would receive. -/
def mark_bad_channels (fname bad_fname : String) : Except PyErr (List String) := do
  let scope : List (String × PyVal) :=
    [("fname", PyVal.str fname), ("bad_fname", PyVal.str bad_fname)]
  let cmd := ["mark_bad_channels"]
  let fileArg ← lookupName scope "fname"
  let cmd := cmd ++ ["--file", pyStr fileArg]
  let digArg ← lookupName scope "dig"
  let cmd := cmd ++ ["--dig", pyStr digArg]
  let fixArg ← lookupName scope "fix"
  let cmd := if pyTruthy fixArg then cmd ++ ["--fix"] else cmd
  return cmd

/-- A keyword pair whose generic formatting would spell the literal token
`--filteroff` in the command: its keyword renders as that flag, or one of its
formatted values equals that text. -/
def mentionsFilterOff (p : String × PyVal) : Bool :=
  ("--" ++ p.1 == "--filteroff") || (asList p.2).any fun v => pyStr v == "--filteroff"

/-- A cell of the time × channel grid: (time index, channel index). -/
abbrev Cell := Nat × Nat

/-- Modelled from the spec: the spatio-temporal adjacency of grid cells (spec section
4.3), part of the cluster-test core missing from the available sources.  Two cells
are adjacent when they share a time bin and their channels are spatial neighbors, or
share a channel and sit in adjacent time bins. -/
def cellAdj (adj : Nat → Nat → Bool) (a b : Cell) : Bool :=
  (decide (a.1 = b.1) && adj a.2 b.2) ||
  (decide (a.2 = b.2) && (decide (b.1 = a.1 + 1) || decide (a.1 = b.1 + 1)))

/-- Modelled from the spec: the suprathreshold cells of an nTimes × nChannels mask,
enumerated in the fixed time-then-channel order of spec section 4.3. -/
def supraCells (nTimes nChannels : Nat) (mask : Cell → Bool) : List Cell :=
  ((List.range nTimes).product (List.range nChannels)).filter mask

/-- Whether a cell is adjacent to some cell of the component being grown. -/
def touches (adjB : Cell → Cell → Bool) (comp : List Cell) (c : Cell) : Bool :=
  comp.any fun d => adjB d c

/-- Modelled from the spec: the growth loop of the Cluster Former's traversal — each
pass moves every not-yet-visited cell adjacent to the current component into it and
repeats until no cell moves; the fuel argument makes the recursion structural and one
unit per visited cell is enough. -/
def grow (adjB : Cell → Cell → Bool) : Nat → List Cell → List Cell → List Cell × List Cell
  | 0, comp, rest => (comp, rest)
  | fuel + 1, comp, rest =>
    if (rest.filter (touches adjB comp)).isEmpty then (comp, rest)
    else
      grow adjB fuel (comp ++ rest.filter (touches adjB comp))
        (rest.filter fun c => !touches adjB comp c)

/-- Modelled from the spec: the Cluster Former (spec section 4.3), missing from the
available sources — connected components of the suprathreshold cells under the given
cell adjacency, discovered by traversal from each yet-unvisited cell in order.  The
fuel argument makes the recursion structural; formClusters supplies enough for the
whole cell list. -/
def formClustersFuel (adjB : Cell → Cell → Bool) : Nat → List Cell → List (List Cell)
  | 0, _ => []
  | _, [] => []
  | fuel + 1, c :: rest =>
    let p := grow adjB rest.length [c] rest
    p.1 :: formClustersFuel adjB fuel p.2

/-- Modelled from the spec: the Cluster Former applied to a list of suprathreshold
cells. -/
def formClusters (adjB : Cell → Cell → Bool) (cells : List Cell) : List (List Cell) :=
  formClustersFuel adjB cells.length cells

/-- A chain of pairwise-adjacent cells inside the cell set S, witnessing the
connectivity invariant of spec section 3. -/
inductive Reach (adjB : Cell → Cell → Bool) (S : List Cell) : Cell → Cell → Prop where
  | refl : ∀ a, a ∈ S → Reach adjB S a a
  | tail : ∀ a b c, Reach adjB S a b → c ∈ S → adjB b c = true → Reach adjB S a c

/-- A condition's trial tensor: [trial][time bin][channel] real measurements. -/
abbrev CondTensor := List (List (List ℚ))

/-- Modelled from the spec: the Cluster Scorer (spec section 4.4) — the sum of the
statistic values at the cluster's cells. -/
def clusterScore (grid : Cell → ℚ) (cl : List Cell) : ℚ := (cl.map grid).sum

/-- The maximum of a list of cluster scores; a permutation with no suprathreshold
cluster contributes the finite, non-disruptive value 0 (spec section 7). -/
def maxScore : List ℚ → ℚ
  | [] => 0
  | x :: xs => max x (maxScore xs)

/-- Configuration of the cluster test (spec section 6). -/
structure ClusterConfig where
  nPermutations : Nat
  threshold : ℚ
  nTimes : Nat
  nChannels : Nat

/-- Modelled from the spec: the suprathreshold mask for tail=+1 — true where the
statistic exceeds the threshold. -/
def maskOf (threshold : ℚ) (grid : Cell → ℚ) : Cell → Bool :=
  fun cell => decide (threshold < grid cell)

/-- The observed clusters of a statistic grid: the Cluster Former applied to its
suprathreshold cells. -/
def clustersOf (adj : Nat → Nat → Bool) (cfg : ClusterConfig) (grid : Cell → ℚ) :
    List (List Cell) :=
  formClusters (cellAdj adj) (supraCells cfg.nTimes cfg.nChannels (maskOf cfg.threshold grid))

/-- Modelled from the spec: the Permutation Engine's null distribution (spec section
4.5) — for each of the nPermutations relabelings drawn from the caller-seeded stream
`permute`, recompute the statistic grid, re-form clusters and record the maximum
cluster score. -/
def nullDistribution (permute : Nat → List CondTensor)
    (statFn : List CondTensor → Cell → ℚ) (cfg : ClusterConfig)
    (adj : Nat → Nat → Bool) : List ℚ :=
  (List.range cfg.nPermutations).map fun i =>
    maxScore ((clustersOf adj cfg (statFn (permute i))).map
      (clusterScore (statFn (permute i))))

/-- A configuration error reported before any permutation work starts (spec section
7). -/
inductive ConfigError where
  | tooFewTrials : ConfigError
deriving DecidableEq

/-- The four outputs of the cluster test (spec section 6): observed statistic grid,
ordered cluster list, parallel p-values, raw null distribution. -/
structure ClusterTestResult where
  tObs : Cell → ℚ
  clusters : List (List Cell)
  pValues : List ℚ
  nullDist : List ℚ

/-- Modelled from the spec: spatio_temporal_cluster_test for tail=+1 (spec sections
4.5-4.6), the engine whose implementation is missing from the available sources.  If
any condition has fewer than 2 trials the configuration error is returned before any
permutation is evaluated; otherwise the observed grid, the full cluster list, one
p-value per observed cluster (no significance filtering) and the raw null
distribution are returned. -/
def spatio_temporal_cluster_test (conditions : List CondTensor)
    (permute : Nat → List CondTensor) (statFn : List CondTensor → Cell → ℚ)
    (cfg : ClusterConfig) (adj : Nat → Nat → Bool) :
    Except ConfigError ClusterTestResult :=
  if conditions.any fun c => decide (c.length < 2) then
    Except.error ConfigError.tooFewTrials
  else
    Except.ok
      { tObs := statFn conditions
        clusters := clustersOf adj cfg (statFn conditions)
        pValues := (clustersOf adj cfg (statFn conditions)).map fun cl =>
          pValue (nullDistribution permute statFn cfg adj)
            (clusterScore (statFn conditions) cl)
        nullDist := nullDistribution permute statFn cfg adj }

/-- Witness inputs shared by the engine claims: no condition, a constant-zero
statistic, a degenerate grid and no permutations. -/
def zeroStat : List CondTensor → Cell → ℚ := fun _ _ => 0

def noAdj : Nat → Nat → Bool := fun _ _ => false

def emptyCfg : ClusterConfig := ⟨0, 0, 0, 0⟩

def emptyRes : ClusterTestResult :=
  { tObs := fun _ => 0, clusters := [], pValues := [], nullDist := [] }

/- ### Theorems -/

/-- C1: for tail=+1 the Significance Calculator returns
p = (count of null-distribution entries ≥ S, plus 1) / (N_permutations + 1); in
particular, for a null distribution of 99 maxima all strictly below the observed
score, the returned p-value is 1/100. -/
theorem pValue_formula_and_scenario (nullDist : List ℚ) (s : ℚ)
    (hlen : nullDist.length = 99) (hbelow : ∀ x ∈ nullDist, x < s) :
    pValue nullDist s =
      (((nullDist.countP fun x => decide (s ≤ x)) : ℚ) + 1) / ((nullDist.length : ℚ) + 1) ∧
    pValue nullDist s = 1 / 100 := by
  refine ⟨rfl, ?_⟩
  have hc : (nullDist.countP fun x => decide (s ≤ x)) = 0 := by
    rw [List.countP_eq_zero]
    intro a ha
    simp only [decide_eq_true_eq]
    exact not_le.mpr (hbelow a ha)
  rw [pValue, hc, hlen]
  norm_num

/-- Witness for C1 at a concrete null distribution of 99 zeros and observed score 1. -/
theorem pValue_formula_and_scenario_witness :
    pValue (List.replicate 99 (0 : ℚ)) 1 =
      ((((List.replicate 99 (0 : ℚ)).countP fun x => decide ((1 : ℚ) ≤ x)) : ℚ) + 1) /
        (((List.replicate 99 (0 : ℚ)).length : ℚ) + 1) ∧
    pValue (List.replicate 99 (0 : ℚ)) 1 = 1 / 100 :=
  pValue_formula_and_scenario (List.replicate 99 (0 : ℚ)) 1 (by simp)
    (fun x hx => by rw [List.eq_of_mem_replicate hx]; norm_num)

/-- C6: for every null distribution with at least one entry and every observed score,
the returned p-value lies in the half-open interval (0, 1]. -/
theorem pValue_bounds (nullDist : List ℚ) (s : ℚ) (h : 1 ≤ nullDist.length) :
    0 < pValue nullDist s ∧ pValue nullDist s ≤ 1 := by
  have hc : (nullDist.countP fun x => decide (s ≤ x)) ≤ nullDist.length :=
    List.countP_le_length _
  constructor
  · apply div_pos <;> positivity
  · rw [pValue, div_le_one (by positivity)]
    have hcq : ((nullDist.countP fun x => decide (s ≤ x)) : ℚ) ≤ (nullDist.length : ℚ) := by
      exact_mod_cast hc
    linarith

/-- Witness for C6 at the singleton null distribution [0] and observed score 5. -/
theorem pValue_bounds_witness :
    0 < pValue [(0 : ℚ)] 5 ∧ pValue [(0 : ℚ)] 5 ≤ 1 :=
  pValue_bounds [(0 : ℚ)] 5 (by simp)

/-- C7: for a fixed null distribution and tail=+1, the p-value is antitone in the
observed cluster score: a score at least as large yields a p-value at most as large. -/
theorem pValue_antitone (nullDist : List ℚ) (s1 s2 : ℚ) (h : s2 ≤ s1) :
    pValue nullDist s1 ≤ pValue nullDist s2 := by
  have hc : (nullDist.countP fun x => decide (s1 ≤ x)) ≤
      nullDist.countP fun x => decide (s2 ≤ x) := by
    apply List.countP_mono_left
    intro x _ hpx
    simp only [decide_eq_true_eq] at hpx ⊢
    exact le_trans h hpx
  have hcq : ((nullDist.countP fun x => decide (s1 ≤ x)) : ℚ) + 1 ≤
      ((nullDist.countP fun x => decide (s2 ≤ x)) : ℚ) + 1 := by
    exact_mod_cast Nat.succ_le_succ hc
  rw [pValue, pValue]
  gcongr

/-- Witness for C7: on the null distribution [0, 1] the score 2 gets a p-value at most
that of the score 1. -/
theorem pValue_antitone_witness :
    pValue [(0 : ℚ), 1] 2 ≤ pValue [(0 : ℚ), 1] 1 :=
  pValue_antitone [(0 : ℚ), 1] 2 1 (by norm_num)

/-- C8: for every pair of string arguments, mark_bad_channels evaluates the unbound
name dig right after appending the file flag and its fname argument, so it raises a
NameError before any subprocess is launched, and its bad_fname argument is never
used: the result does not depend on it. -/
theorem mark_bad_channels_name_error (fname bad_fname other : String) :
    mark_bad_channels fname bad_fname = Except.error (PyErr.nameError "dig") ∧
    mark_bad_channels fname bad_fname = mark_bad_channels fname other := by
  exact ⟨rfl, rfl⟩

/-- C10: process_raw without a raw keyword fails its assertion before any other
validation; with raw present, it raises the ValueError about specifying a raw file
exactly when the value under raw is an empty list, since _n_items counts a list
value by its length and any other present value as 1. -/
theorem process_raw_raw_validation (kwargs : List (String × PyVal)) :
    ((kwargs.lookup "raw").isNone → process_raw kwargs = Except.error PyErr.assertionError) ∧
    ((kwargs.lookup "raw").isSome →
      (process_raw kwargs =
          Except.error (PyErr.valueError "You have to specify a raw file as input") ↔
        kwargs.lookup "raw" = some (PyVal.list []))) := by
  constructor
  · intro h
    rw [process_raw, if_pos h]
  · intro h
    obtain ⟨v, hv⟩ := Option.isSome_iff_exists.mp h
    have hcond : ¬((kwargs.lookup "raw").isNone = true) := by simp [hv]
    have hgen : ¬(_n_items kwargs "raw" = 0) →
        ¬(kwargs.lookup "raw" = some (PyVal.list [])) →
        (process_raw kwargs =
            Except.error (PyErr.valueError "You have to specify a raw file as input") ↔
          kwargs.lookup "raw" = some (PyVal.list [])) := by
      intro hn hne
      rw [process_raw, if_neg hcond, if_neg hn]
      constructor
      · intro hcontra
        split_ifs at hcontra <;> simp_all
      · intro hl
        exact absurd hl hne
    cases v with
    | list l =>
      cases l with
      | nil =>
        have hn : _n_items kwargs "raw" = 0 := by simp [_n_items, hv]
        rw [process_raw, if_neg hcond, if_pos hn]
        simp [hv]
      | cons a t =>
        exact hgen (by simp [_n_items, hv]) (by simp [hv])
    | str s => exact hgen (by simp [_n_items, hv]) (by simp [hv])
    | int n => exact hgen (by simp [_n_items, hv]) (by simp [hv])
    | bool b => exact hgen (by simp [_n_items, hv]) (by simp [hv])

/-- Witness for C10: a call without raw hits the assertion, and a call whose raw value
is the empty list raises the ValueError. -/
theorem process_raw_raw_validation_witness :
    process_raw [("cov", PyVal.str "c.fif")] = Except.error PyErr.assertionError ∧
    (process_raw [("raw", PyVal.list [])] =
        Except.error (PyErr.valueError "You have to specify a raw file as input") ↔
      [("raw", PyVal.list [])].lookup "raw" = some (PyVal.list [])) :=
  ⟨(process_raw_raw_validation [("cov", PyVal.str "c.fif")]).1 rfl,
   (process_raw_raw_validation [("raw", PyVal.list [])]).2 rfl⟩

theorem mentionsFilterOff_false (key : String) (val : PyVal)
    (h : mentionsFilterOff (key, val) = false) :
    ¬("--" ++ key = "--filteroff") ∧ ∀ v ∈ asList val, ¬(pyStr v = "--filteroff") := by
  rw [mentionsFilterOff] at h
  rcases Bool.or_eq_false_iff.mp h with ⟨h1, h2⟩
  exact ⟨by simpa using h1, fun v hv => by simpa using List.any_eq_false.mp h2 v hv⟩

theorem mem_foldr_flag (key : String) (items : List PyVal) (base : List String)
    (x : String) :
    x ∈ items.foldr (fun v acc => ("--" ++ key) :: pyStr v :: acc) base ↔
      (∃ v ∈ items, x = "--" ++ key ∨ x = pyStr v) ∨ x ∈ base := by
  induction items with
  | nil => simp
  | cons a t ih =>
    simp only [List.foldr_cons, List.mem_cons, ih, List.mem_cons]
    constructor
    · rintro (h | h | ⟨v, hv, hx⟩ | h)
      · exact Or.inl ⟨a, by simp, Or.inl h⟩
      · exact Or.inl ⟨a, by simp, Or.inr h⟩
      · exact Or.inl ⟨v, by simp [hv], hx⟩
      · exact Or.inr h
    · rintro (⟨v, hv, hx | hx⟩ | h)
      · exact Or.inl hx
      · rcases hv with rfl | hv
        · exact Or.inr (Or.inl hx)
        · exact Or.inr (Or.inr (Or.inl ⟨v, hv, Or.inr hx⟩))
      · exact Or.inr (Or.inr (Or.inr h))

theorem processArgs_no_filteroff (kwargs : List (String × PyVal))
    (hclean : ∀ p ∈ kwargs, mentionsFilterOff p = false) :
    "--filteroff" ∉ processArgs kwargs := by
  induction kwargs with
  | nil => simp [processArgs]
  | cons p rest ih =>
    obtain ⟨key, val⟩ := p
    have hp := mentionsFilterOff_false key val (hclean (key, val) (List.mem_cons_self _ _))
    have hrest := ih fun q hq => hclean q (List.mem_cons_of_mem _ hq)
    rw [processArgs]
    by_cases hproj : key = "proj"
    · rw [if_pos hproj]
      intro hmem
      rcases List.mem_append.mp hmem with h1 | h2
      · split_ifs at h1 <;> simp_all
      · exact hrest h2
    · rw [if_neg hproj]
      by_cases hfilter : key = "filter" ∧ pyTruthy val = false
      · rw [if_pos hfilter, if_neg (by simp [hfilter.2])]
        simpa using hrest
      · rw [if_neg hfilter]
        intro hmem
        rcases (mem_foldr_flag key _ _ _).mp hmem with ⟨v, hvmem, hflag | hval⟩ | hbase
        · exact hp.1 hflag.symm
        · exact hp.2 v hvmem hval.symm
        · exact hrest hbase

theorem lookup_skip (key : String) (hne : key ≠ "filter")
    (l1 l2 : List (String × PyVal)) (v : PyVal) :
    (l1 ++ ("filter", v) :: l2).lookup key = (l1 ++ l2).lookup key := by
  induction l1 with
  | nil =>
    have hb : (key == "filter") = false := by simpa using hne
    simp [List.lookup, hb]
  | cons a t ih =>
    obtain ⟨k, w⟩ := a
    simp only [List.cons_append, List.lookup]
    cases h : key == k <;> simp [h, ih]

theorem n_items_skip (key : String) (hne : key ≠ "filter")
    (l1 l2 : List (String × PyVal)) (v : PyVal) :
    _n_items (l1 ++ ("filter", v) :: l2) key = _n_items (l1 ++ l2) key := by
  unfold _n_items
  rw [lookup_skip key hne]

theorem processArgs_skip (l1 l2 : List (String × PyVal)) (v : PyVal)
    (hv : pyTruthy v = false) :
    processArgs (l1 ++ ("filter", v) :: l2) = processArgs (l1 ++ l2) := by
  induction l1 with
  | nil =>
    simp only [List.nil_append]
    rw [processArgs]
    rw [if_neg (by decide : ¬(("filter" : String) = "proj")), if_pos ⟨rfl, hv⟩,
      if_neg (by simp [hv])]
    simp
  | cons p rest ih =>
    obtain ⟨k, w⟩ := p
    simp only [List.cons_append]
    rw [processArgs]
    conv_rhs => rw [processArgs]
    by_cases hproj : k = "proj"
    · rw [if_pos hproj, if_pos hproj, ih]
    · rw [if_neg hproj, if_neg hproj]
      by_cases hf : k = "filter" ∧ pyTruthy w = false
      · rw [if_pos hf, if_pos hf, ih]
      · rw [if_neg hf, if_neg hf, ih]

theorem process_raw_drop (l1 l2 : List (String × PyVal)) (v : PyVal)
    (hv : pyTruthy v = false) :
    process_raw (l1 ++ ("filter", v) :: l2) = process_raw (l1 ++ l2) := by
  unfold process_raw
  rw [lookup_skip "raw" (by decide) l1 l2 v,
    n_items_skip "raw" (by decide) l1 l2 v,
    n_items_skip "cov" (by decide) l1 l2 v,
    n_items_skip "ave" (by decide) l1 l2 v,
    processArgs_skip l1 l2 v hv]

/-- C9 counterexample: a caller passing the literal keyword filteroff with a truthy
value makes process_raw put the flag --filteroff into the command through the
generic formatting branch, so the command list can contain that flag. -/
theorem process_raw_filteroff_counterexample :
    process_raw [("raw", PyVal.str "a.fif"), ("filteroff", PyVal.bool true)] =
      Except.ok ["mne_process_raw", "--raw", "a.fif", "--filteroff", "True"] ∧
    "--filteroff" ∈ ["mne_process_raw", "--raw", "a.fif", "--filteroff", "True"] := by
  refine ⟨rfl, ?_⟩
  simp

/-- C9 amended: the branch of process_raw guarded by both the negated and the plain
truthiness of the same filter value never appends --filteroff — the flag can enter
the command only when a keyword pair itself spells that token through the generic
branch — and a falsy filter argument is silently dropped: removing it leaves the
result unchanged. -/
theorem process_raw_filter_amended :
    (∀ (kwargs : List (String × PyVal)) (cmd : List String),
        process_raw kwargs = Except.ok cmd →
        (∀ p ∈ kwargs, mentionsFilterOff p = false) →
        "--filteroff" ∉ cmd) ∧
    (∀ (l1 l2 : List (String × PyVal)) (v : PyVal), pyTruthy v = false →
        process_raw (l1 ++ ("filter", v) :: l2) = process_raw (l1 ++ l2)) := by
  constructor
  · intro kwargs cmd hok hclean
    have hcmd : cmd = "mne_process_raw" :: processArgs kwargs := by
      rw [process_raw] at hok
      split_ifs at hok
      all_goals simp_all
    subst hcmd
    intro hmem
    rcases List.mem_cons.mp hmem with h | h
    · simp at h
    · exact processArgs_no_filteroff kwargs hclean h
  · exact fun l1 l2 v hv => process_raw_drop l1 l2 v hv

/-- Witness for the amended C9: a clean call's command avoids the flag, and a falsy
filter keyword is dropped without a trace. -/
theorem process_raw_filter_amended_witness :
    "--filteroff" ∉ ["mne_process_raw", "--raw", "a.fif"] ∧
    process_raw [("raw", PyVal.str "a.fif"), ("filter", PyVal.bool false)] =
      process_raw [("raw", PyVal.str "a.fif")] :=
  ⟨process_raw_filter_amended.1 [("raw", PyVal.str "a.fif")]
      ["mne_process_raw", "--raw", "a.fif"] rfl
      (fun p hp => by simp only [List.mem_singleton] at hp; subst hp; rfl),
   process_raw_filter_amended.2 [("raw", PyVal.str "a.fif")] [] (PyVal.bool false) rfl⟩

theorem grow_perm (adjB : Cell → Cell → Bool) (fuel : Nat) :
    ∀ comp rest : List Cell,
      ((grow adjB fuel comp rest).1 ++ (grow adjB fuel comp rest).2).Perm (comp ++ rest) := by
  induction fuel with
  | zero => intro comp rest; simp [grow]
  | succ n ih =>
    intro comp rest
    rw [grow]
    by_cases h : (rest.filter (touches adjB comp)).isEmpty = true
    · rw [if_pos h]
    · rw [if_neg h]
      refine (ih _ _).trans ?_
      rw [List.append_assoc]
      exact (List.filter_append_perm (touches adjB comp) rest).append_left comp

theorem grow_rest_sublist (adjB : Cell → Cell → Bool) (fuel : Nat) :
    ∀ comp rest : List Cell, (grow adjB fuel comp rest).2.Sublist rest := by
  induction fuel with
  | zero => intro comp rest; simp [grow]
  | succ n ih =>
    intro comp rest
    rw [grow]
    by_cases h : (rest.filter (touches adjB comp)).isEmpty = true
    · rw [if_pos h]
    · rw [if_neg h]
      exact (ih _ _).trans (List.filter_sublist _)

theorem grow_comp_extends (adjB : Cell → Cell → Bool) (fuel : Nat) :
    ∀ comp rest : List Cell, ∃ ext, (grow adjB fuel comp rest).1 = comp ++ ext := by
  induction fuel with
  | zero => intro comp rest; exact ⟨[], by simp [grow]⟩
  | succ n ih =>
    intro comp rest
    rw [grow]
    by_cases h : (rest.filter (touches adjB comp)).isEmpty = true
    · rw [if_pos h]; exact ⟨[], by simp⟩
    · rw [if_neg h]
      obtain ⟨ext, hext⟩ := ih (comp ++ rest.filter (touches adjB comp))
        (rest.filter fun c => !touches adjB comp c)
      exact ⟨rest.filter (touches adjB comp) ++ ext, by rw [hext, List.append_assoc]⟩

theorem grow_reach (adjB : Cell → Cell → Bool) (U : List Cell) (s : Cell) (fuel : Nat) :
    ∀ comp rest : List Cell, (∀ x ∈ comp, Reach adjB U s x) → (∀ x ∈ rest, x ∈ U) →
      ∀ x ∈ (grow adjB fuel comp rest).1, Reach adjB U s x := by
  induction fuel with
  | zero =>
    intro comp rest hcomp _ x hx
    exact hcomp x (by simpa [grow] using hx)
  | succ n ih =>
    intro comp rest hcomp hrest x hx
    rw [grow] at hx
    by_cases h : (rest.filter (touches adjB comp)).isEmpty = true
    · rw [if_pos h] at hx
      exact hcomp x hx
    · rw [if_neg h] at hx
      refine ih _ _ ?_ ?_ x hx
      · intro y hy
        rcases List.mem_append.mp hy with hy | hy
        · exact hcomp y hy
        · have hyrest : y ∈ rest := List.mem_of_mem_filter hy
          have htouch : touches adjB comp y = true := List.of_mem_filter hy
          rw [touches, List.any_eq_true] at htouch
          obtain ⟨d, hd, hadj⟩ := htouch
          exact Reach.tail s d y (hcomp d hd) (hrest y hyrest) hadj
      · intro y hy
        exact hrest y (List.mem_of_mem_filter hy)

theorem grow_stable (adjB : Cell → Cell → Bool) (fuel : Nat) :
    ∀ comp rest : List Cell, rest.length ≤ fuel →
      ∀ c ∈ (grow adjB fuel comp rest).2, ∀ d ∈ (grow adjB fuel comp rest).1,
        adjB d c = false := by
  induction fuel with
  | zero =>
    intro comp rest hlen c hc
    have hnil : rest = [] := List.length_eq_zero.mp (Nat.le_zero.mp hlen)
    subst hnil
    simp [grow] at hc
  | succ n ih =>
    intro comp rest hlen c hc d hd
    rw [grow] at hc hd
    by_cases h : (rest.filter (touches adjB comp)).isEmpty = true
    · rw [if_pos h] at hc hd
      have hall : ∀ x ∈ rest, ¬(touches adjB comp x = true) :=
        List.filter_eq_nil_iff.mp (List.isEmpty_iff.mp h)
      have hnot : touches adjB comp c = false := Bool.eq_false_iff.mpr (hall c hc)
      rw [touches, List.any_eq_false] at hnot
      exact Bool.eq_false_iff.mpr (hnot d hd)
    · rw [if_neg h] at hc hd
      have hsum : (rest.filter (touches adjB comp)).length +
          (rest.filter fun c => !touches adjB comp c).length = rest.length := by
        have := (List.filter_append_perm (touches adjB comp) rest).length_eq
        simpa [List.length_append] using this
      have hpos : 0 < (rest.filter (touches adjB comp)).length := by
        rcases Nat.eq_zero_or_pos (rest.filter (touches adjB comp)).length with hz | hp
        · exact absurd (List.isEmpty_iff.mpr (List.length_eq_zero.mp hz)) (by simpa using h)
        · exact hp
      exact ih _ _ (by omega) c hc d hd

theorem formClustersFuel_subset (adjB : Cell → Cell → Bool) (fuel : Nat) :
    ∀ cells cl, cl ∈ formClustersFuel adjB fuel cells → ∀ x ∈ cl, x ∈ cells := by
  induction fuel with
  | zero =>
    intro cells cl hcl
    simp [formClustersFuel] at hcl
  | succ n ih =>
    intro cells cl hcl x hx
    cases cells with
    | nil => simp [formClustersFuel] at hcl
    | cons c rest =>
      rw [formClustersFuel] at hcl
      rcases List.mem_cons.mp hcl with rfl | hcl
      · have hperm := grow_perm adjB rest.length [c] rest
        have hx2 : x ∈ (grow adjB rest.length [c] rest).1 ++
            (grow adjB rest.length [c] rest).2 := List.mem_append_left _ hx
        simpa using hperm.mem_iff.mp hx2
      · have hx2 : x ∈ (grow adjB rest.length [c] rest).2 := ih _ cl hcl x hx
        exact List.mem_cons_of_mem _ ((grow_rest_sublist adjB rest.length [c] rest).subset hx2)

theorem formClustersFuel_join_perm (adjB : Cell → Cell → Bool) (fuel : Nat) :
    ∀ cells : List Cell, cells.length ≤ fuel →
      (formClustersFuel adjB fuel cells).flatten.Perm cells := by
  induction fuel with
  | zero =>
    intro cells hlen
    have hnil : cells = [] := List.length_eq_zero.mp (Nat.le_zero.mp hlen)
    subst hnil
    simp [formClustersFuel]
  | succ n ih =>
    intro cells hlen
    cases cells with
    | nil => simp [formClustersFuel]
    | cons c rest =>
      rw [formClustersFuel]
      have hrestlen : (grow adjB rest.length [c] rest).2.length ≤ n := by
        have := (grow_rest_sublist adjB rest.length [c] rest).length_le
        have hl : rest.length + 1 ≤ n + 1 := by simpa using hlen
        omega
      have hone := ih (grow adjB rest.length [c] rest).2 hrestlen
      simp only [List.flatten_cons]
      refine (hone.append_left _).trans ?_
      exact grow_perm adjB rest.length [c] rest

theorem Reach.mem_start {adjB : Cell → Cell → Bool} {S : List Cell} {a b : Cell}
    (h : Reach adjB S a b) : a ∈ S := by
  induction h with
  | refl ha => exact ha
  | tail _ _ _ _ _ ih => exact ih

theorem Reach.mem_end {adjB : Cell → Cell → Bool} {S : List Cell} {a b : Cell}
    (h : Reach adjB S a b) : b ∈ S := by
  induction h with
  | refl ha => exact ha
  | tail _ _ _ hc _ _ => exact hc

theorem Reach.mono {adjB : Cell → Cell → Bool} {S S' : List Cell} {a b : Cell}
    (h : Reach adjB S a b) (hsub : ∀ z, z ∈ S → z ∈ S') : Reach adjB S' a b := by
  induction h with
  | refl ha => exact Reach.refl _ (hsub _ ha)
  | tail b c _ hc hadj ih => exact Reach.tail _ b c ih (hsub c hc) hadj

theorem Reach.comp {adjB : Cell → Cell → Bool} {S : List Cell} {a b c : Cell}
    (h1 : Reach adjB S a b) (h2 : Reach adjB S b c) : Reach adjB S a c := by
  induction h2 with
  | refl _ => exact h1
  | tail c d _ hd hadj ih => exact Reach.tail a c d ih hd hadj

theorem Reach.head {adjB : Cell → Cell → Bool} {S : List Cell} {a b c : Cell}
    (hadj : adjB a b = true) (ha : a ∈ S) (h : Reach adjB S b c) : Reach adjB S a c := by
  induction h with
  | refl hb => exact Reach.tail a a b (Reach.refl a ha) hb hadj
  | tail c d _ hd hadj2 ih => exact Reach.tail a c d ih hd hadj2

theorem Reach.symm {adjB : Cell → Cell → Bool} {S : List Cell} {a b : Cell}
    (hsym : ∀ x y, adjB x y = adjB y x) (h : Reach adjB S a b) : Reach adjB S b a := by
  induction h with
  | refl ha => exact Reach.refl _ ha
  | tail b c _ hc hadj ih => exact Reach.head (by rw [hsym]; exact hadj) hc ih

theorem formClustersFuel_reach_seed (adjB : Cell → Cell → Bool) (fuel : Nat) :
    ∀ cells cl, cl ∈ formClustersFuel adjB fuel cells →
      ∃ s, s ∈ cl ∧ ∀ x ∈ cl, Reach adjB cells s x := by
  induction fuel with
  | zero =>
    intro cells cl hcl
    simp [formClustersFuel] at hcl
  | succ n ih =>
    intro cells cl hcl
    cases cells with
    | nil => simp [formClustersFuel] at hcl
    | cons c rest =>
      rw [formClustersFuel] at hcl
      rcases List.mem_cons.mp hcl with rfl | hcl
      · refine ⟨c, ?_, ?_⟩
        · obtain ⟨ext, hext⟩ := grow_comp_extends adjB rest.length [c] rest
          rw [hext]
          exact List.mem_append_left _ (by simp)
        · intro x hx
          refine grow_reach adjB (c :: rest) c rest.length [c] rest ?_ ?_ x hx
          · intro z hz
            rw [List.mem_singleton] at hz
            rw [hz]
            exact Reach.refl c (by simp)
          · intro z hz
            exact List.mem_cons_of_mem _ hz
      · obtain ⟨s, hs, hreach⟩ := ih _ cl hcl
        refine ⟨s, hs, fun x hx => (hreach x hx).mono ?_⟩
        intro z hz
        exact List.mem_cons_of_mem _
          ((grow_rest_sublist adjB rest.length [c] rest).subset hz)

theorem formClustersFuel_closed (adjB : Cell → Cell → Bool)
    (hsym : ∀ x y, adjB x y = adjB y x) (fuel : Nat) :
    ∀ cells : List Cell, cells.length ≤ fuel →
      ∀ cl ∈ formClustersFuel adjB fuel cells,
        ∀ d ∈ cl, ∀ y ∈ cells, adjB d y = true → y ∈ cl := by
  induction fuel with
  | zero =>
    intro cells _ cl hcl
    simp [formClustersFuel] at hcl
  | succ n ih =>
    intro cells hlen cl hcl d hd y hy hadj
    cases cells with
    | nil => simp [formClustersFuel] at hcl
    | cons c rest =>
      rw [formClustersFuel] at hcl
      have hperm := grow_perm adjB rest.length [c] rest
      have hstable := grow_stable adjB rest.length [c] rest (Nat.le_refl _)
      have hy2 : y ∈ (grow adjB rest.length [c] rest).1 ++
          (grow adjB rest.length [c] rest).2 := hperm.mem_iff.mpr (by simpa using hy)
      rcases List.mem_cons.mp hcl with rfl | hcl
      · rcases List.mem_append.mp hy2 with h1 | h2
        · exact h1
        · exact absurd hadj (by simp [hstable y h2 d hd])
      · have hrestlen : (grow adjB rest.length [c] rest).2.length ≤ n := by
          have := (grow_rest_sublist adjB rest.length [c] rest).length_le
          have hl : rest.length + 1 ≤ n + 1 := by simpa using hlen
          omega
        have hdmem : d ∈ (grow adjB rest.length [c] rest).2 :=
          formClustersFuel_subset adjB n _ cl hcl d hd
        rcases List.mem_append.mp hy2 with h1 | h2
        · have hfalse := hstable d hdmem y h1
          rw [hsym d y] at hadj
          exact absurd hadj (by simp [hfalse])
        · exact ih _ hrestlen cl hcl d hd y h2 hadj

theorem reach_mem_of_closed {adjB : Cell → Cell → Bool} {cells cl : List Cell}
    (hclosed : ∀ d ∈ cl, ∀ y ∈ cells, adjB d y = true → y ∈ cl)
    {x y : Cell} (hx : x ∈ cl) (h : Reach adjB cells x y) : y ∈ cl := by
  induction h with
  | refl _ => exact hx
  | tail b c _ hc hadj ih => exact hclosed b ih c hc hadj

theorem formClusters_mem_iff (adjB : Cell → Cell → Bool)
    (hsym : ∀ x y, adjB x y = adjB y x) (cells : List Cell) (cl : List Cell)
    (hcl : cl ∈ formClusters adjB cells) (x : Cell) (hx : x ∈ cl) (y : Cell) :
    y ∈ cl ↔ Reach adjB cells x y := by
  constructor
  · intro hy
    obtain ⟨s, hs, hreach⟩ :=
      formClustersFuel_reach_seed adjB cells.length cells cl hcl
    exact ((hreach x hx).symm hsym).comp (hreach y hy)
  · intro hr
    exact reach_mem_of_closed
      (formClustersFuel_closed adjB hsym cells.length cells (Nat.le_refl _) cl hcl) hx hr

theorem cellAdj_symm (adj : Nat → Nat → Bool) (hsym : ∀ a b, adj a b = adj b a)
    (x y : Cell) : cellAdj adj x y = cellAdj adj y x := by
  simp only [cellAdj]
  rw [hsym x.2 y.2,
    show (decide (x.1 = y.1)) = (decide (y.1 = x.1)) by simp [eq_comm],
    show (decide (x.2 = y.2)) = (decide (y.2 = x.2)) by simp [eq_comm],
    Bool.or_comm (decide (y.1 = x.1 + 1)) (decide (x.1 = y.1 + 1))]

/-- C3: every cluster produced by the Cluster Former satisfies the connectivity
invariant — any two of its cells are linked by a chain of suprathreshold cells in
which consecutive cells are spatial neighbors or share a channel at adjacent time
indices, so no cluster holds two cells without such a path. -/
theorem clusterFormer_connectivity (adj : Nat → Nat → Bool)
    (hsym : ∀ a b, adj a b = adj b a) (nTimes nChannels : Nat) (mask : Cell → Bool)
    (cl : List Cell)
    (hcl : cl ∈ formClusters (cellAdj adj) (supraCells nTimes nChannels mask))
    (a b : Cell) (ha : a ∈ cl) (hb : b ∈ cl) :
    Reach (cellAdj adj) (supraCells nTimes nChannels mask) a b :=
  (formClusters_mem_iff (cellAdj adj) (cellAdj_symm adj hsym)
    (supraCells nTimes nChannels mask) cl hcl a ha b).mp hb

/-- Witness for C3 on a 2 × 2 grid, an all-true mask, and the channel adjacency
linking channels 0 and 1: the single cluster spans the grid and its corner cells are
connected. -/
theorem clusterFormer_connectivity_witness :
    Reach (cellAdj fun a b => a + b == 1) (supraCells 2 2 fun _ => true)
      (0, 0) (1, 1) :=
  clusterFormer_connectivity (fun a b => a + b == 1)
    (fun a b => by simp [Nat.add_comm a b]) 2 2 (fun _ => true)
    [(0, 0), (0, 1), (1, 0), (1, 1)] (by decide) (0, 0) (1, 1) (by decide) (by decide)

theorem formClusters_toFinset_exists (adjB : Cell → Cell → Bool)
    (hsym : ∀ x y, adjB x y = adjB y x) (cells₁ cells₂ : List Cell)
    (hmem : ∀ z, z ∈ cells₁ ↔ z ∈ cells₂) (cl : List Cell)
    (hcl : cl ∈ formClusters adjB cells₁) :
    ∃ cl₂ ∈ formClusters adjB cells₂, cl₂.toFinset = cl.toFinset := by
  obtain ⟨s, hs, _⟩ := formClustersFuel_reach_seed adjB cells₁.length cells₁ cl hcl
  have hs2 : s ∈ cells₂ :=
    (hmem s).mp (formClustersFuel_subset adjB cells₁.length cells₁ cl hcl s hs)
  have hjoin := formClustersFuel_join_perm adjB cells₂.length cells₂ (Nat.le_refl _)
  obtain ⟨cl₂, hcl₂, hscl₂⟩ := List.mem_flatten.mp (hjoin.mem_iff.mpr hs2)
  refine ⟨cl₂, hcl₂, ?_⟩
  ext y
  simp only [List.mem_toFinset]
  rw [formClusters_mem_iff adjB hsym cells₂ cl₂ hcl₂ s hscl₂ y,
    formClusters_mem_iff adjB hsym cells₁ cl hcl s hs y]
  exact ⟨fun h => h.mono fun z hz => (hmem z).mpr hz,
    fun h => h.mono fun z hz => (hmem z).mp hz⟩

/-- C5: the partition of suprathreshold cells into clusters is independent of the
traversal order — running the Cluster Former on any two permutations of the same
cell list yields the same set of cell-sets. -/
theorem clusterFormer_order_invariant (adj : Nat → Nat → Bool)
    (hsym : ∀ a b, adj a b = adj b a) (cells₁ cells₂ : List Cell)
    (hperm : cells₁.Perm cells₂) :
    ((formClusters (cellAdj adj) cells₁).map List.toFinset).toFinset =
      ((formClusters (cellAdj adj) cells₂).map List.toFinset).toFinset := by
  have hsym' := cellAdj_symm adj hsym
  have hmem : ∀ z, z ∈ cells₁ ↔ z ∈ cells₂ := fun z => hperm.mem_iff
  ext A
  simp only [List.mem_toFinset, List.mem_map]
  constructor
  · rintro ⟨cl, hcl, rfl⟩
    obtain ⟨cl₂, hcl₂, heq⟩ :=
      formClusters_toFinset_exists (cellAdj adj) hsym' cells₁ cells₂ hmem cl hcl
    exact ⟨cl₂, hcl₂, heq⟩
  · rintro ⟨cl, hcl, rfl⟩
    obtain ⟨cl₂, hcl₂, heq⟩ :=
      formClusters_toFinset_exists (cellAdj adj) hsym' cells₂ cells₁
        (fun z => (hmem z).symm) cl hcl
    exact ⟨cl₂, hcl₂, heq⟩

/-- Witness for C5 on a two-cell mask visited in the two possible orders. -/
theorem clusterFormer_order_invariant_witness :
    ((formClusters (cellAdj fun a b => a + b == 1)
        [((0 : Nat), (0 : Nat)), (0, 1)]).map List.toFinset).toFinset =
      ((formClusters (cellAdj fun a b => a + b == 1)
        [((0 : Nat), (1 : Nat)), (0, 0)]).map List.toFinset).toFinset :=
  clusterFormer_order_invariant (fun a b => a + b == 1)
    (fun a b => by simp [Nat.add_comm a b]) [(0, 0), (0, 1)] [(0, 1), (0, 0)] (by decide)

/-- C2: a successful run returns the four outputs — observed grid, the cluster list
exactly as the Cluster Former produced it (no cluster removed by any significance
threshold), a parallel p-value list with exactly one entry per observed cluster, and
the raw null distribution. -/
theorem cluster_test_outputs (conditions : List CondTensor)
    (permute : Nat → List CondTensor) (statFn : List CondTensor → Cell → ℚ)
    (cfg : ClusterConfig) (adj : Nat → Nat → Bool) (r : ClusterTestResult)
    (h : spatio_temporal_cluster_test conditions permute statFn cfg adj =
      Except.ok r) :
    r.tObs = statFn conditions ∧
    r.clusters = clustersOf adj cfg (statFn conditions) ∧
    r.nullDist = nullDistribution permute statFn cfg adj ∧
    r.pValues = r.clusters.map (fun cl => pValue r.nullDist (clusterScore r.tObs cl)) ∧
    r.pValues.length = r.clusters.length := by
  rw [spatio_temporal_cluster_test] at h
  by_cases hguard : (conditions.any fun c => decide (c.length < 2)) = true
  · rw [if_pos hguard] at h
    cases h
  · rw [if_neg hguard] at h
    cases h
    exact ⟨rfl, rfl, rfl, rfl, by simp⟩

/-- Witness for C2 at the degenerate concrete input. -/
theorem cluster_test_outputs_witness :
    emptyRes.tObs = zeroStat [] ∧
    emptyRes.clusters = clustersOf noAdj emptyCfg (zeroStat []) ∧
    emptyRes.nullDist = nullDistribution (fun _ => []) zeroStat emptyCfg noAdj ∧
    emptyRes.pValues = emptyRes.clusters.map
      (fun cl => pValue emptyRes.nullDist (clusterScore emptyRes.tObs cl)) ∧
    emptyRes.pValues.length = emptyRes.clusters.length :=
  cluster_test_outputs [] (fun _ => []) zeroStat emptyCfg noAdj emptyRes rfl

/-- C4: if any condition holds fewer than 2 trials, the engine reports the
configuration error — for every permutation stream and statistic function, so no
permutation work contributes to the outcome. -/
theorem permutation_engine_small_n (conditions : List CondTensor)
    (permute : Nat → List CondTensor) (statFn : List CondTensor → Cell → ℚ)
    (cfg : ClusterConfig) (adj : Nat → Nat → Bool)
    (h : ∃ c ∈ conditions, c.length < 2) :
    spatio_temporal_cluster_test conditions permute statFn cfg adj =
      Except.error ConfigError.tooFewTrials := by
  have hguard : (conditions.any fun c => decide (c.length < 2)) = true := by
    obtain ⟨c, hc, hlen⟩ := h
    exact List.any_eq_true.mpr ⟨c, hc, by simpa using hlen⟩
  rw [spatio_temporal_cluster_test, if_pos hguard]

/-- Witness for C4: one condition with a single trial is rejected. -/
theorem permutation_engine_small_n_witness :
    spatio_temporal_cluster_test [[[[ (0 : ℚ) ]]]] (fun _ => []) zeroStat emptyCfg
      noAdj = Except.error ConfigError.tooFewTrials :=
  permutation_engine_small_n [[[[ (0 : ℚ) ]]]] (fun _ => []) zeroStat emptyCfg noAdj
    ⟨[[[ (0 : ℚ) ]]], by simp, by simp⟩

